import Mathlib

/-!
Verification of the core of the DBSCAN repository (twbabyduck/DBSCAN).

The development shallowly embeds the two variants of the engine found in
the sources:

* `src/DBSCAN/cpu/src/solver.cpp` — the cpu solver: `insert_edges`
  (scalar branch), `classify_nodes`, `identify_cluster`, `bfs`;
* `src/G-DBSCAN/include/Graph.h` — the two-phase adjacency container
  (`insert_edge`, `cluster_node`, `finalize` in both the dense and the
  `BIT_ADJ` encodings);
* `src/G-DBSCAN/include/Solver.h` — the G-DBSCAN solver (`make_graph`,
  `classify_nodes`, `bfs`).

Machine integers (`size_t`, `int`, `uint64_t`) are modelled as `Nat`/`Int`
(no arithmetic in these routines can overflow for the index ranges they
touch); coordinates are modelled as `ℚ` so the distance predicate is exact;
C++ out-of-bounds accesses and `throw`s are modelled by `Except`.
-/

namespace DBSCAN

/-- Mirror of `enum Membership { Core, Border, Noise }` (Membership.h). -/
inductive Membership where
  | Core : Membership
  | Border : Membership
  | Noise : Membership
deriving DecidableEq, Repr

/-- Cluster-id vectors (`std::vector<int> cluster_ids`, initialised to `-1`)
are modelled as total functions from indices to `ℤ`. -/
abbrev Ids := ℕ → ℤ

/-- Membership vectors (`std::vector<Membership>`) as total functions. -/
abbrev Mems := ℕ → Membership

/-- Point update of a vector-as-function: `vec[i] = v`. -/
def upd {α : Type} (f : ℕ → α) (i : ℕ) (v : α) : ℕ → α :=
  fun j => if j = i then v else f j

@[simp] theorem upd_same {α : Type} (f : ℕ → α) (i : ℕ) (v : α) :
    upd f i v i = v := by simp [upd]

@[simp] theorem upd_ne {α : Type} (f : ℕ → α) (i j : ℕ) (v : α) (h : j ≠ i) :
    upd f i v j = f j := by simp [upd, h]

/-- The cpu distance kernel `input_type::TwoDimPoints::euclidean_distance_square`:
`(x1-x2)*(x1-x2) + (y1-y2)*(y1-y2)` (squared Euclidean distance, no sqrt). -/
def euclidean_distance_square (x1 y1 x2 y2 : ℚ) : ℚ :=
  (x1 - x2) * (x1 - x2) + (y1 - y2) * (y1 - y2)

/-- Squared distance between dataset points `u` and `v`
(`dataset_->d1`/`d2` are the coordinate columns `X`/`Y`). -/
def distUV (X Y : ℕ → ℚ) (u v : ℕ) : ℚ :=
  euclidean_distance_square (X u) (Y u) (X v) (Y v)

/-- Embedding of `Solver::insert_edges` (solver.cpp, scalar default branch): for every
source node `u < n` and every candidate `v ∈ [0, n)`, the edge `u → v` is
recorded in `u`'s staging list iff `u ≠ v` and the squared distance is
`≤ squared_radius_`.  Thread partitioning only splits the `u` range, so the
resulting staging lists are exactly the filtered ranges, in ascending `v`
order. -/
def insert_edges (n : ℕ) (X Y : ℕ → ℚ) (eps2 : ℚ) : List (List ℕ) :=
  (List.range n).map fun u =>
    (List.range n).filter fun v =>
      decide (u ≠ v ∧ distUV X Y u v ≤ eps2)

/-- Modelled from the spec: `GDBSCAN::point::EuclideanTwoD::operator-`
compared against the radius (`Distance.h`/the `SQRE_RADIUS` build flag are
not under `src/`); per §4.3 the predicate is the squared Euclidean distance
against the squared radius.  `Solver::make_graph` (Solver.h, lines 78–84)
enumerates only the pairs `u < v` and records the single directed edge
`u → v` for each qualifying pair. -/
def make_graph (n : ℕ) (X Y : ℕ → ℚ) (eps2 : ℚ) : List (List ℕ) :=
  (List.range n).map fun u =>
    (List.range n).filter fun v =>
      decide (u < v ∧ distUV X Y u v ≤ eps2)

/-! ### CSR construction (`Graph::finalize`) -/

/-- The `Va` loop of `Graph::finalize` (both encodings):
`Va[2k] = (k == 0 ? 0 : Va[2k-1] + Va[2k-2])` (exclusive running offset)
and `Va[2k+1] = degree of k`.  `computeVa degs off` interleaves the running
offset (starting at `off`) with the given per-node degrees. -/
def computeVa : List ℕ → ℕ → List ℕ
  | [], _ => []
  | d :: rest, off => off :: d :: computeVa rest (off + d)

/-- Degrees in the dense encoding: `temp_adj_[k].size()`. -/
def denseDegrees (temp_adj : List (List ℕ)) : List ℕ :=
  temp_adj.map List.length

/-- Model of `__builtin_popcountll`: number of set bits of a word. -/
def popcount : ℕ → ℕ
  | 0 => 0
  | n + 1 => (n + 1) % 2 + popcount ((n + 1) / 2)
decreasing_by exact Nat.div_lt_self (Nat.succ_pos n) Nat.one_lt_two

/-- Model of `__builtin_ffsll(val) - 1` for `val ≠ 0`: index of the lowest set bit. -/
def lowbit : ℕ → ℕ
  | 0 => 0
  | n + 1 => if (n + 1) % 2 = 1 then 0 else lowbit ((n + 1) / 2) + 1
decreasing_by exact Nat.div_lt_self (Nat.succ_pos n) Nat.one_lt_two

/-- The `while (val) { k = ffs(val)-1; …; val &= val-1; }` loop of the
`BIT_ADJ` `finalize`: the ascending list of set-bit indices of a word. -/
def extractBits (val : ℕ) : List ℕ :=
  if h : val = 0 then []
  else lowbit val :: extractBits (val &&& (val - 1))
decreasing_by
  exact Nat.lt_of_le_of_lt Nat.and_le_right (Nat.pred_lt h)

/-- Degrees in the `BIT_ADJ` encoding: the sum of the popcounts of a
node's bit row (`Va[2k+1] += popcount(val)` over the row). -/
def bitDegrees (temp_adj : List (List ℕ)) : List ℕ :=
  temp_adj.map fun row => (row.map popcount).sum

/-- The neighbour indices a `BIT_ADJ` row emits into `Ea`, in emission
order: for word `i` of the row, each set bit `k` yields `64*i + k`. -/
def rowBits (row : List ℕ) : List ℕ :=
  (row.enum.map fun p => (extractBits p.2).map fun k => 64 * p.1 + k).flatten

/-- Model of `std::vector::resize(sz)` on a `size`-preserving integer vector:
truncate or zero-pad to length `sz`. -/
def resize (l : List ℕ) (sz : ℕ) : List ℕ :=
  l.take sz ++ List.replicate (sz - l.length) 0

/-- Write the elements of `xs` into `ea` at consecutive positions starting
at `pos` (the `std::copy(nbs.cbegin(), nbs.cend(), Ea.begin() + Va[2u])` /
output-iterator pattern of the `finalize` fill phase). -/
def writeAt : List ℕ → ℕ → List ℕ → List ℕ
  | ea, _, [] => ea
  | ea, pos, x :: xs => writeAt (ea.set pos x) (pos + 1) xs

/-- The parallel fill phase of the dense `finalize`: node `u`'s staging
list is copied into `Ea` starting at `Va[2u]`.  The strided thread
partition writes disjoint ranges, so the result equals the sequential
fill; `off` threads the running offset `Va[2u]`. -/
def fillEa : List ℕ → List (List ℕ) → ℕ → List ℕ
  | ea, [], _ => ea
  | ea, nbs :: rest, off => fillEa (writeAt ea off nbs) rest (off + nbs.length)

/-- The parallel fill phase of the `BIT_ADJ` `finalize`: node `u`'s row is
expanded bit-by-bit and written from `Va[2u]` on; the iterator advances
once per emitted neighbour. -/
def fillEaBits : List ℕ → List (List ℕ) → ℕ → List ℕ
  | ea, [], _ => ea
  | ea, row :: rest, off =>
      fillEaBits (writeAt ea off (rowBits row)) rest (off + (row.map popcount).sum)

/-! ### The two-phase `Graph` container (Graph.h) -/

/-- The error kinds surfaced by the `throw std::runtime_error` sites of
`Graph.h`: `Immutable` for `assert_mutable_`, `NotFinalized` for
`assert_immutable_`, `OutOfBound` for the index checks (and for the
out-of-bounds vector accesses that C++ leaves undefined). -/
inductive GraphError where
  | Immutable : GraphError
  | NotFinalized : GraphError
  | OutOfBound : GraphError
deriving DecidableEq, Repr

/-- The class `GDBSCAN::Graph` (dense staging encoding).  `Va`, `Ea` are the CSR
arrays, `temp_adj` the phase-A staging lists, `immutable` the
`immutable_` flag. -/
structure Graph where
  num_nodes : ℕ
  Va : List ℕ
  Ea : List ℕ
  cluster_ids : Ids
  memberships : Mems
  temp_adj : List (List ℕ)
  immutable : Bool

/-- The `Graph` constructor: `Va(num_nodes * 2, 0)`, `cluster_ids(num_nodes,
-1)`, `membership(num_nodes, Noise)`, empty staging lists, not frozen. -/
def Graph.init (n : ℕ) : Graph :=
  { num_nodes := n
    Va := List.replicate (2 * n) 0
    Ea := []
    cluster_ids := fun _ => -1
    memberships := fun _ => Membership.Noise
    temp_adj := List.replicate n []
    immutable := false }

/-- Embedding of `Graph::insert_edge(u, v)` (dense): `assert_mutable_()`, bounds check,
then `temp_adj_[u].push_back(v)`. -/
def Graph.insert_edge (g : Graph) (u v : ℕ) : Except GraphError Graph :=
  if g.immutable then .error .Immutable
  else if g.num_nodes ≤ u ∨ g.num_nodes ≤ v then .error .OutOfBound
  else .ok { g with temp_adj := g.temp_adj.set u (g.temp_adj.getD u [] ++ [v]) }

/-- Embedding of `Graph::cluster_node(node, cluster_id)`: `assert_immutable_()`, bounds
check, then `cluster_ids[node] = cluster_id`. -/
def Graph.cluster_node (g : Graph) (node : ℕ) (cluster_id : ℤ) :
    Except GraphError Graph :=
  if !g.immutable then .error .NotFinalized
  else if g.num_nodes ≤ node then .error .OutOfBound
  else .ok { g with cluster_ids := upd g.cluster_ids node cluster_id }

/-- Element access `g.Va[i]`: `Va` is a public member with no phase guard;
the only failure mode is an access outside the allocation. -/
def Graph.readVa (g : Graph) (i : ℕ) : Except GraphError ℕ :=
  if i < g.Va.length then .ok (g.Va.getD i 0) else .error .OutOfBound

/-- Element access `g.Ea[i]`: public member, no phase guard. -/
def Graph.readEa (g : Graph) (i : ℕ) : Except GraphError ℕ :=
  if i < g.Ea.length then .ok (g.Ea.getD i 0) else .error .OutOfBound

/-- Embedding of `Graph::finalize()` (dense branch).  After `assert_mutable_()` the `Va`
pass runs; then `sz = Va[Va.size()-1] + Va[Va.size()-2]` — when `Va` is
empty (a zero-node graph) both indices wrap around `size_t` and the vector
accesses are out of bounds, modelled as `.error .OutOfBound`.  If `sz == 0`
the staging is released and the graph frozen with `Ea` untouched;
otherwise `Ea` is resized to `sz` and filled node by node at the `Va[2u]`
offsets. -/
def Graph.finalize (g : Graph) : Except GraphError Graph :=
  if g.immutable then .error .Immutable
  else
    let va := computeVa (denseDegrees g.temp_adj) 0
    if va.length < 2 then .error .OutOfBound
    else
      let sz := va.getD (va.length - 1) 0 + va.getD (va.length - 2) 0
      if sz = 0 then
        .ok { g with Va := va, temp_adj := [], immutable := true }
      else
        .ok { g with Va := va,
                     Ea := fillEa (resize g.Ea sz) g.temp_adj 0,
                     temp_adj := [], immutable := true }

/-- The class `GDBSCAN::Graph` under `BIT_ADJ`: the staging area is a bit matrix,
one row of 64-bit words per node (words as `ℕ < 2^64`). -/
structure GraphB where
  num_nodes : ℕ
  Va : List ℕ
  Ea : List ℕ
  cluster_ids : Ids
  memberships : Mems
  temp_adj : List (List ℕ)
  immutable : Bool

/-- The `BIT_ADJ` constructor: `⌈n/64⌉` zero words per node. -/
def GraphB.init (n : ℕ) : GraphB :=
  { num_nodes := n
    Va := List.replicate (2 * n) 0
    Ea := []
    cluster_ids := fun _ => -1
    memberships := fun _ => Membership.Noise
    temp_adj := List.replicate n (List.replicate (n / 64 + if n % 64 ≠ 0 then 1 else 0) 0)
    immutable := false }

/-- Embedding of `Graph::insert_edge(u, idx, mask)` (`BIT_ADJ`): `assert_mutable_()`,
bounds check against the row length, then `temp_adj_[u][idx] |= mask`. -/
def GraphB.insert_edge (g : GraphB) (u idx mask : ℕ) : Except GraphError GraphB :=
  if g.immutable then .error .Immutable
  else if g.num_nodes ≤ u ∨ (g.temp_adj.getD u []).length ≤ idx then .error .OutOfBound
  else
    let row := g.temp_adj.getD u []
    .ok { g with temp_adj := g.temp_adj.set u (row.set idx (row.getD idx 0 ||| mask)) }

/-- Embedding of `Graph::finalize()` (`BIT_ADJ` branch): degrees are popcount sums, the
rest mirrors the dense branch (including the out-of-bounds `sz` read on an
empty `Va`). -/
def GraphB.finalize (g : GraphB) : Except GraphError GraphB :=
  if g.immutable then .error .Immutable
  else
    let va := computeVa (bitDegrees g.temp_adj) 0
    if va.length < 2 then .error .OutOfBound
    else
      let sz := va.getD (va.length - 1) 0 + va.getD (va.length - 2) 0
      if sz = 0 then
        .ok { g with Va := va, temp_adj := [], immutable := true }
      else
        .ok { g with Va := va,
                     Ea := fillEaBits (resize g.Ea sz) g.temp_adj 0,
                     temp_adj := [], immutable := true }

/-! ### The cluster engine (solver.cpp) -/

/-- Embedding of `Solver::classify_nodes` (solver.cpp, lines 250–263): for every node,
Core iff the stored degree `Va[2k+1]` reaches `min_pts_`, Noise otherwise. -/
def classify_nodes (min_pts : ℕ) (g : Graph) : Graph :=
  { g with memberships := fun k =>
      if k < g.num_nodes then
        (if min_pts ≤ g.Va.getD (2 * k + 1) 0 then Membership.Core else Membership.Noise)
      else g.memberships k }

/-- Embedding of `Solver::classify_nodes` of G-DBSCAN (Solver.h, lines 147–153): the
comparison reads `Va[node * 2]` — the CSR offset slot under the layout
`Graph.h`'s `finalize` writes — not the degree slot. -/
def classify_nodes_gdbscan (min_pts : ℕ) (g : Graph) : Graph :=
  { g with memberships := fun k =>
      if k < g.num_nodes then
        (if min_pts ≤ g.Va.getD (2 * k) 0 then Membership.Core else Membership.Noise)
      else g.memberships k }

/-- The neighbour list traversed by `bfs` (solver.cpp, lines 322–325):
`Ea[Va[2n] + i]` for `i < Va[2n+1]`. -/
def nbrList (g : Graph) (n : ℕ) : List ℕ :=
  (List.range (g.Va.getD (2 * n + 1) 0)).map fun i =>
    g.Ea.getD (g.Va.getD (2 * n) 0 + i) 0

/-- The mutable state of one BFS: cluster ids, memberships, and the
accumulated next-level frontier. -/
structure BfsState where
  ids : Ids
  mems : Mems
  next : List ℕ

/-- The neighbour-loop body (solver.cpp, lines 325–334): a neighbour still
at cluster id `-1` is clustered and pushed onto this worker's next-level
frontier. -/
def pushStep (cluster : ℤ) (t : BfsState) (nb : ℕ) : BfsState :=
  if t.ids nb = -1 then
    { t with ids := upd t.ids nb cluster, next := t.next ++ [nb] }
  else t

/-- Processing of one frontier node (solver.cpp, lines 313–335): a Noise
node is relabelled Border and not expanded; otherwise the neighbour loop
runs over `Ea[Va[2n] : Va[2n] + Va[2n+1]]`. -/
def processNode (nbrs : ℕ → List ℕ) (cluster : ℤ) (s : BfsState) (node : ℕ) :
    BfsState :=
  if s.mems node = Membership.Noise then
    { s with mems := upd s.mems node Membership.Border }
  else
    (nbrs node).foldl (pushStep cluster) s

/-- One level of the BFS.  The C++ partitions `curr_level` among threads
and concatenates the per-thread `next_level`s in thread order, which for
the purpose of the final state equals processing `curr_level` in order. -/
def processLevel (nbrs : ℕ → List ℕ) (cluster : ℤ) (curr : List ℕ)
    (s : BfsState) : BfsState :=
  curr.foldl (processNode nbrs cluster) s

/-- The `while (!curr_level.empty())` loop of `Solver::bfs`, with an
explicit fuel for the embedding; `none` means the fuel ran out before the
frontier emptied. -/
def bfsLoop (nbrs : ℕ → List ℕ) (cluster : ℤ) :
    ℕ → List ℕ → Ids → Mems → Option (Ids × Mems)
  | _, [], ids, mems => some (ids, mems)
  | 0, _ :: _, _, _ => none
  | fuel + 1, n :: rest, ids, mems =>
      let s := processLevel nbrs cluster (n :: rest) ⟨ids, mems, []⟩
      bfsLoop nbrs cluster fuel s.next s.ids s.mems

/-- The number of nodes in `[0, N)` still at cluster id `-1`; the measure
that bounds the number of BFS levels. -/
def countNeg (N : ℕ) (ids : Ids) : ℕ :=
  ((Finset.range N).filter fun i => ids i = -1).card

/-- Embedding of `Solver::bfs(start_node, cluster)`: run the level loop from the
one-element frontier.  The fuel `countNeg N ids + 1` is an upper bound on
the number of levels (proved below), so the embedded loop mirrors the
unbounded C++ `while`. -/
def bfs (N : ℕ) (nbrs : ℕ → List ℕ) (ids : Ids) (mems : Mems)
    (start_node : ℕ) (cluster : ℤ) : Option (Ids × Mems) :=
  bfsLoop nbrs cluster (countNeg N ids + 1) [start_node] ids mems

/-- One iteration of the `identify_cluster` outer loop (solver.cpp, lines
274–282): seed a new cluster at an unassigned Core node and run `bfs`. -/
def identStep (N : ℕ) (nbrs : ℕ → List ℕ) :
    Ids × Mems × ℤ → ℕ → Option (Ids × Mems × ℤ)
  | (ids, mems, cluster), node =>
      if ids node = -1 ∧ mems node = Membership.Core then
        match bfs N nbrs (upd ids node cluster) mems node cluster with
        | some (ids', mems') => some (ids', mems', cluster + 1)
        | none => none
      else some (ids, mems, cluster)

/-- Embedding of `Solver::identify_cluster`: scan the nodes in index order with a
running cluster counter starting at `0`. -/
def identify_cluster (g : Graph) : Option (Ids × Mems × ℤ) :=
  (List.range g.num_nodes).foldlM (identStep g.num_nodes (nbrList g))
    (g.cluster_ids, g.memberships, 0)

/-! ### CSR lemmas -/

theorem computeVa_length (degs : List ℕ) (off : ℕ) :
    (computeVa degs off).length = 2 * degs.length := by
  induction degs generalizing off with
  | nil => simp [computeVa]
  | cons d rest ih =>
      simp [computeVa, ih]
      ring

theorem computeVa_getD_even (degs : List ℕ) (off k : ℕ) (hk : k < degs.length) :
    (computeVa degs off).getD (2 * k) 0 =
      off + ∑ j ∈ Finset.range k, degs.getD j 0 := by
  induction degs generalizing off k with
  | nil => simp at hk
  | cons d rest ih =>
      cases k with
      | zero => simp [computeVa]
      | succ k =>
          have h2 : 2 * (k + 1) = 2 * k + 1 + 1 := by ring
          rw [computeVa, h2, List.getD_cons_succ, List.getD_cons_succ,
            ih (off + d) k (by simpa using hk)]
          rw [Finset.sum_range_succ']
          simp [add_assoc, add_comm, add_left_comm]

theorem computeVa_getD_odd (degs : List ℕ) (off k : ℕ) (hk : k < degs.length) :
    (computeVa degs off).getD (2 * k + 1) 0 = degs.getD k 0 := by
  induction degs generalizing off k with
  | nil => simp at hk
  | cons d rest ih =>
      cases k with
      | zero => simp [computeVa]
      | succ k =>
          have h2 : 2 * (k + 1) + 1 = 2 * k + 1 + 1 + 1 := by ring
          rw [computeVa, h2, List.getD_cons_succ, List.getD_cons_succ,
            ih (off + d) k (by simpa using hk)]
          simp

theorem sum_getD_range (l : List ℕ) :
    ∑ j ∈ Finset.range l.length, l.getD j 0 = l.sum := by
  induction l with
  | nil => simp
  | cons x xs ih =>
      rw [List.length_cons, Finset.sum_range_succ']
      simp only [List.getD_cons_succ, List.getD_cons_zero, List.sum_cons, ih]
      omega

/-- The quantity `sz = Va[Va.size()-1] + Va[Va.size()-2]` equals the total degree. -/
theorem computeVa_sz (degs : List ℕ) (hne : degs ≠ []) :
    (computeVa degs 0).getD ((computeVa degs 0).length - 1) 0 +
      (computeVa degs 0).getD ((computeVa degs 0).length - 2) 0 = degs.sum := by
  obtain ⟨L, hL⟩ : ∃ L, degs.length = L + 1 :=
    ⟨degs.length - 1, by have := List.length_pos.mpr hne; omega⟩
  have h1 : (computeVa degs 0).length - 1 = 2 * L + 1 := by
    rw [computeVa_length, hL]; omega
  have h2 : (computeVa degs 0).length - 2 = 2 * L := by
    rw [computeVa_length, hL]; omega
  rw [h1, h2, computeVa_getD_odd degs 0 L (by omega),
    computeVa_getD_even degs 0 L (by omega)]
  rw [← sum_getD_range degs, hL, Finset.sum_range_succ]
  omega

theorem writeAt_length (xs ea : List ℕ) (pos : ℕ) :
    (writeAt ea pos xs).length = ea.length := by
  induction xs generalizing ea pos with
  | nil => simp [writeAt]
  | cons x xs ih => simp [writeAt, ih]

theorem writeAt_append (xs ys ea : List ℕ) (pos : ℕ) :
    writeAt ea pos (xs ++ ys) = writeAt (writeAt ea pos xs) (pos + xs.length) ys := by
  induction xs generalizing ea pos with
  | nil => simp [writeAt]
  | cons x xs ih =>
      rw [List.cons_append, writeAt, writeAt, ih]
      have : pos + 1 + xs.length = pos + (x :: xs).length := by
        rw [List.length_cons]; omega
      rw [this]

theorem writeAt_eq (xs : List ℕ) : ∀ (ea : List ℕ) (pos : ℕ),
    pos + xs.length ≤ ea.length →
    writeAt ea pos xs = ea.take pos ++ xs ++ ea.drop (pos + xs.length) := by
  induction xs with
  | nil =>
      intro ea pos h
      simp [writeAt, List.take_append_drop]
  | cons x xs ih =>
      intro ea pos h
      rw [List.length_cons] at h
      have hpos : pos < ea.length := by omega
      have hle : pos + 1 + xs.length ≤ (ea.set pos x).length := by
        rw [List.length_set]; omega
      have htp : (ea.take pos).length = pos := by
        rw [List.length_take]; omega
      rw [writeAt, ih _ _ hle, List.set_eq_take_cons_drop x hpos]
      rw [List.take_append_eq_append_take, List.drop_append_eq_append_drop, htp]
      rw [List.take_of_length_le (by omega : (ea.take pos).length ≤ pos + 1)]
      rw [List.drop_eq_nil_of_le (by omega : (ea.take pos).length ≤ pos + 1 + xs.length)]
      have e1 : pos + 1 - pos = 1 := by omega
      have e2 : pos + 1 + xs.length - pos = 1 + xs.length := by omega
      rw [e1, e2]
      have e3 : List.take 1 (x :: List.drop (pos + 1) ea) = [x] := by simp
      have e4 : List.drop (1 + xs.length) (x :: List.drop (pos + 1) ea) =
          ea.drop (pos + (xs.length + 1)) := by
        have : 1 + xs.length = xs.length + 1 := by omega
        rw [this, List.drop_succ_cons, List.drop_drop]
        congr 1
        omega
      rw [e3, e4, List.length_cons]
      simp [List.append_assoc]

theorem fillEa_eq_writeAt (temp : List (List ℕ)) (ea : List ℕ) (off : ℕ) :
    fillEa ea temp off = writeAt ea off temp.flatten := by
  induction temp generalizing ea off with
  | nil => simp [fillEa, writeAt]
  | cons nbs rest ih =>
      rw [fillEa, ih, List.flatten_cons, writeAt_append]

theorem fillEa_exact (temp : List (List ℕ)) :
    fillEa (List.replicate temp.flatten.length 0) temp 0 = temp.flatten := by
  rw [fillEa_eq_writeAt, writeAt_eq _ _ _ (by simp)]
  simp

theorem fillEa_length (temp : List (List ℕ)) (ea : List ℕ) (off : ℕ) :
    (fillEa ea temp off).length = ea.length := by
  rw [fillEa_eq_writeAt, writeAt_length]

theorem fillEaBits_length (temp : List (List ℕ)) (ea : List ℕ) (off : ℕ) :
    (fillEaBits ea temp off).length = ea.length := by
  induction temp generalizing ea off with
  | nil => simp [fillEaBits]
  | cons row rest ih => simp [fillEaBits, ih, writeAt_length]

/-! ### `finalize` inversion -/

/-- The frozen graph produced by a successful dense `finalize`: `Va` is the
fused offset/degree scan, `Ea` the concatenation of the staging lists in
node order, the staging is released and the graph frozen. -/
def finalizedOf (g : Graph) : Graph :=
  { g with Va := computeVa (denseDegrees g.temp_adj) 0
           Ea := g.temp_adj.flatten
           temp_adj := []
           immutable := true }

theorem denseDegrees_length (temp : List (List ℕ)) :
    (denseDegrees temp).length = temp.length := by
  simp [denseDegrees]

theorem denseDegrees_getD (temp : List (List ℕ)) (j : ℕ) (hj : j < temp.length) :
    (denseDegrees temp).getD j 0 = (temp.getD j []).length := by
  rw [List.getD_eq_getElem _ _ (by simpa [denseDegrees] using hj),
    List.getD_eq_getElem _ _ hj]
  simp [denseDegrees]

theorem denseDegrees_sum (temp : List (List ℕ)) :
    (denseDegrees temp).sum = temp.flatten.length := by
  rw [List.length_flatten]; rfl

theorem finalize_ok_inv (g g' : Graph) (hEa : g.Ea = [])
    (hfin : g.finalize = Except.ok g') :
    g.immutable = false ∧ g.temp_adj ≠ [] ∧ g' = finalizedOf g := by
  by_cases him : g.immutable
  · rw [Graph.finalize, if_pos him] at hfin
    exact absurd hfin (by simp)
  · have h0 : g.immutable = false := by simpa using him
    rw [Graph.finalize, if_neg him] at hfin
    by_cases hlen : (computeVa (denseDegrees g.temp_adj) 0).length < 2
    · rw [if_pos hlen] at hfin
      exact absurd hfin (by simp)
    · have hne : g.temp_adj ≠ [] := by
        intro hnil
        exact hlen (by simp [hnil, denseDegrees, computeVa])
      have hdne : denseDegrees g.temp_adj ≠ [] := by
        simpa [denseDegrees] using hne
      rw [if_neg hlen] at hfin
      rw [computeVa_sz _ hdne] at hfin
      refine ⟨h0, hne, ?_⟩
      by_cases hsz : (denseDegrees g.temp_adj).sum = 0
      · rw [if_pos hsz] at hfin
        have hflat : g.temp_adj.flatten = [] := by
          apply List.eq_nil_of_length_eq_zero
          rw [← denseDegrees_sum]; exact hsz
        have := hfin
        simp only [Except.ok.injEq] at this
        rw [← this]
        simp [finalizedOf, hflat, hEa]
      · rw [if_neg hsz] at hfin
        simp only [Except.ok.injEq] at hfin
        rw [← hfin]
        have hres : resize g.Ea ((denseDegrees g.temp_adj).sum) =
            List.replicate g.temp_adj.flatten.length 0 := by
          rw [hEa, denseDegrees_sum]
          simp [resize]
        simp only [finalizedOf, hres, fillEa_exact]

theorem finalize_immutable (g g' : Graph) (hfin : g.finalize = Except.ok g') :
    g'.immutable = true := by
  by_cases him : g.immutable
  · rw [Graph.finalize, if_pos him] at hfin
    exact absurd hfin (by simp)
  · rw [Graph.finalize, if_neg him] at hfin
    by_cases hlen : (computeVa (denseDegrees g.temp_adj) 0).length < 2
    · rw [if_pos hlen] at hfin
      exact absurd hfin (by simp)
    · rw [if_neg hlen] at hfin
      by_cases hsz : (computeVa (denseDegrees g.temp_adj) 0).getD
          ((computeVa (denseDegrees g.temp_adj) 0).length - 1) 0 +
          (computeVa (denseDegrees g.temp_adj) 0).getD
          ((computeVa (denseDegrees g.temp_adj) 0).length - 2) 0 = 0
      · rw [if_pos hsz] at hfin
        simp only [Except.ok.injEq] at hfin
        rw [← hfin]
      · rw [if_neg hsz] at hfin
        simp only [Except.ok.injEq] at hfin
        rw [← hfin]

theorem finalizeB_immutable (g g' : GraphB) (hfin : g.finalize = Except.ok g') :
    g'.immutable = true := by
  by_cases him : g.immutable
  · rw [GraphB.finalize, if_pos him] at hfin
    exact absurd hfin (by simp)
  · rw [GraphB.finalize, if_neg him] at hfin
    by_cases hlen : (computeVa (bitDegrees g.temp_adj) 0).length < 2
    · rw [if_pos hlen] at hfin
      exact absurd hfin (by simp)
    · rw [if_neg hlen] at hfin
      by_cases hsz : (computeVa (bitDegrees g.temp_adj) 0).getD
          ((computeVa (bitDegrees g.temp_adj) 0).length - 1) 0 +
          (computeVa (bitDegrees g.temp_adj) 0).getD
          ((computeVa (bitDegrees g.temp_adj) 0).length - 2) 0 = 0
      · rw [if_pos hsz] at hfin
        simp only [Except.ok.injEq] at hfin
        rw [← hfin]
      · rw [if_neg hsz] at hfin
        simp only [Except.ok.injEq] at hfin
        rw [← hfin]

theorem resize_length (l : List ℕ) (n : ℕ) : (resize l n).length = n := by
  simp [resize]
  omega

theorem flatten_getD (temp : List (List ℕ)) :
    ∀ (u i : ℕ), u < temp.length → i < (temp.getD u []).length →
    temp.flatten.getD ((∑ j ∈ Finset.range u, (temp.getD j []).length) + i) 0 =
      (temp.getD u []).getD i 0 := by
  induction temp with
  | nil => intro u i hu _; simp at hu
  | cons hd rest ih =>
      intro u i hu hi
      cases u with
      | zero =>
          simp only [List.getD_cons_zero] at hi ⊢
          simpa using List.getD_append hd rest.flatten 0 i hi
      | succ u =>
          simp only [List.getD_cons_succ] at hi ⊢
          rw [List.flatten_cons, Finset.sum_range_succ']
          simp only [List.getD_cons_succ, List.getD_cons_zero]
          have harr : (∑ j ∈ Finset.range u, (rest.getD j []).length) + hd.length + i =
              hd.length + ((∑ j ∈ Finset.range u, (rest.getD j []).length) + i) := by
            omega
          rw [harr, List.getD_append_right hd rest.flatten 0 _ (by omega),
            Nat.add_sub_cancel_left]
          exact ih u i (by simpa using hu) hi

theorem sum_denseDegrees_range (temp : List (List ℕ)) (u : ℕ) (hu : u ≤ temp.length) :
    ∑ j ∈ Finset.range u, (denseDegrees temp).getD j 0 =
      ∑ j ∈ Finset.range u, (temp.getD j []).length :=
  Finset.sum_congr rfl fun _ hj =>
    denseDegrees_getD _ _ (lt_of_lt_of_le (Finset.mem_range.mp hj) hu)

/-- Post-freeze neighbour access recovers exactly the staged adjacency
lists: `Ea[Va[2u] : Va[2u] + Va[2u+1]] = temp_adj_[u]`. -/
theorem nbrList_finalizedOf (g : Graph) (u : ℕ) (hu : u < g.temp_adj.length) :
    nbrList (finalizedOf g) u = g.temp_adj.getD u [] := by
  have hdu : u < (denseDegrees g.temp_adj).length := by
    rw [denseDegrees_length]; exact hu
  unfold nbrList finalizedOf
  simp only
  rw [computeVa_getD_odd _ 0 u hdu, computeVa_getD_even _ 0 u hdu,
    denseDegrees_getD _ _ hu, sum_denseDegrees_range _ _ (le_of_lt hu)]
  apply List.ext_getElem
  · simp
  · intro n h1 h2
    simp only [List.getElem_map, List.getElem_range]
    have hn : n < (g.temp_adj.getD u []).length := by simpa using h1
    rw [Nat.zero_add, flatten_getD g.temp_adj u n hu hn,
      List.getD_eq_getElem _ _ hn]

theorem bitDegrees_length (temp : List (List ℕ)) :
    (bitDegrees temp).length = temp.length := by
  simp [bitDegrees]

theorem finalizeB_ok_inv (g g' : GraphB) (hEa : g.Ea = [])
    (hfin : g.finalize = Except.ok g') :
    g.temp_adj ≠ [] ∧ g'.num_nodes = g.num_nodes ∧
      g'.Va = computeVa (bitDegrees g.temp_adj) 0 ∧
      g'.Ea.length = (bitDegrees g.temp_adj).sum := by
  by_cases him : g.immutable
  · rw [GraphB.finalize, if_pos him] at hfin
    exact absurd hfin (by simp)
  · rw [GraphB.finalize, if_neg him] at hfin
    by_cases hlen : (computeVa (bitDegrees g.temp_adj) 0).length < 2
    · rw [if_pos hlen] at hfin
      exact absurd hfin (by simp)
    · have hne : g.temp_adj ≠ [] := by
        intro hnil
        exact hlen (by simp [hnil, bitDegrees, computeVa])
      have hdne : bitDegrees g.temp_adj ≠ [] := by
        simpa [bitDegrees] using hne
      rw [if_neg hlen, computeVa_sz _ hdne] at hfin
      refine ⟨hne, ?_⟩
      by_cases hsz : (bitDegrees g.temp_adj).sum = 0
      · rw [if_pos hsz] at hfin
        simp only [Except.ok.injEq] at hfin
        rw [← hfin]
        simp [hEa, hsz]
      · rw [if_neg hsz] at hfin
        simp only [Except.ok.injEq] at hfin
        rw [← hfin]
        simp [fillEaBits_length, resize_length]

theorem computeVa_prefix_sum (degs : List ℕ) (k : ℕ) (hk : k < degs.length) :
    (computeVa degs 0).getD (2 * k) 0 =
      ∑ j ∈ Finset.range k, (computeVa degs 0).getD (2 * j + 1) 0 := by
  rw [computeVa_getD_even _ 0 k hk]
  have h : ∀ j ∈ Finset.range k, (computeVa degs 0).getD (2 * j + 1) 0 = degs.getD j 0 :=
    fun j hj => computeVa_getD_odd degs 0 j (lt_trans (Finset.mem_range.mp hj) hk)
  rw [Finset.sum_congr rfl h]
  omega

theorem computeVa_sum_odd (degs : List ℕ) :
    ∑ k ∈ Finset.range degs.length, (computeVa degs 0).getD (2 * k + 1) 0 =
      degs.sum := by
  have h : ∀ j ∈ Finset.range degs.length,
      (computeVa degs 0).getD (2 * j + 1) 0 = degs.getD j 0 :=
    fun j hj => computeVa_getD_odd degs 0 j (Finset.mem_range.mp hj)
  rw [Finset.sum_congr rfl h, sum_getD_range]

theorem computeVa_getD_zero (degs : List ℕ) (h : degs ≠ []) :
    (computeVa degs 0).getD 0 0 = 0 := by
  cases degs with
  | nil => exact absurd rfl h
  | cons d rest => simp [computeVa]

/-- Forward form of `finalize_ok_inv`: on an unfrozen graph with at least
one node and an untouched `Ea`, `finalize` succeeds and produces
`finalizedOf`. -/
theorem finalize_eq_ok (g : Graph) (h0 : g.immutable = false)
    (hne : g.temp_adj ≠ []) (hEa : g.Ea = []) :
    g.finalize = Except.ok (finalizedOf g) := by
  have hdne : denseDegrees g.temp_adj ≠ [] := by
    simpa [denseDegrees] using hne
  have hlen : ¬ (computeVa (denseDegrees g.temp_adj) 0).length < 2 := by
    rw [computeVa_length]
    have := List.length_pos.mpr hdne
    omega
  rw [Graph.finalize, if_neg (by simp [h0]), if_neg hlen, computeVa_sz _ hdne]
  by_cases hsz : (denseDegrees g.temp_adj).sum = 0
  · rw [if_pos hsz]
    have hflat : g.temp_adj.flatten = [] :=
      List.eq_nil_of_length_eq_zero (by rw [← denseDegrees_sum]; exact hsz)
    simp only [finalizedOf, Except.ok.injEq, hflat, hEa]
  · rw [if_neg hsz]
    have hres : resize g.Ea (denseDegrees g.temp_adj).sum =
        List.replicate g.temp_adj.flatten.length 0 := by
      rw [hEa, denseDegrees_sum]
      simp [resize]
    rw [hres, fillEa_exact]
    rfl

/-! ### Characterisation of the neighbour builder -/

theorem map_range_getD {α : Type} (f : ℕ → α) (n u : ℕ) (d : α) (hu : u < n) :
    ((List.range n).map f).getD u d = f u := by
  rw [List.getD_eq_getElem _ _ (by simpa using hu)]
  simp

theorem mem_insert_edges (n : ℕ) (X Y : ℕ → ℚ) (eps2 : ℚ) (u v : ℕ) (hu : u < n) :
    v ∈ (insert_edges n X Y eps2).getD u [] ↔
      v < n ∧ u ≠ v ∧ distUV X Y u v ≤ eps2 := by
  unfold insert_edges
  rw [map_range_getD _ _ _ _ hu]
  simp [List.mem_filter, List.mem_range]

theorem insert_edges_length (n : ℕ) (X Y : ℕ → ℚ) (eps2 : ℚ) :
    (insert_edges n X Y eps2).length = n := by
  simp [insert_edges]

theorem distUV_comm (X Y : ℕ → ℚ) (u v : ℕ) : distUV X Y u v = distUV X Y v u := by
  unfold distUV euclidean_distance_square
  ring

/-! ### Concrete instances used by the witnesses -/

/-- A two-node dense graph whose staging lists record the mutual edge
`0 ↔ 1` (as the cpu builder produces on two points within range). -/
def gD2 : Graph := { Graph.init 2 with temp_adj := [[1], [0]] }

/-- A two-node `BIT_ADJ` graph with empty bit rows. -/
def gB2 : GraphB := { GraphB.init 2 with temp_adj := [[], []] }

/-- The frozen form of `gB2`. -/
def gB2fin : GraphB :=
  { num_nodes := 2
    Va := [0, 0, 0, 0]
    Ea := []
    cluster_ids := fun _ => -1
    memberships := fun _ => Membership.Noise
    temp_adj := []
    immutable := true }

/-- The dataset (0,0), (0,1): two points at squared distance 1. -/
def ptsX : ℕ → ℚ := fun _ => 0

/-- See `ptsX`. -/
def ptsY : ℕ → ℚ := fun i => if i = 0 then 0 else 1

/-- A two-node graph staged by the cpu neighbour builder on `ptsX`/`ptsY`
with `ε² = 2`. -/
def gI : Graph := { Graph.init 2 with temp_adj := insert_edges 2 ptsX ptsY 2 }

theorem make_graph_eval : make_graph 2 ptsX ptsY 2 = [[1], []] := by
  simp [make_graph, ptsX, ptsY, distUV, euclidean_distance_square, List.range_succ]

theorem insert_edges_eval : insert_edges 2 ptsX ptsY 2 = [[1], [0]] := by
  simp [insert_edges, ptsX, ptsY, distUV, euclidean_distance_square, List.range_succ]

/-! ### Claim theorems: graph construction -/

/-- C5 — The neighbour builder (`Solver::insert_edges`, scalar branch)
records an edge from `u` to `v` iff `u ≠ v` and the squared Euclidean
distance is `≤ ε²` (candidates range over `[0, N)`); in particular no
self-loop is ever recorded. -/
theorem insert_edges_edge_iff :
    (∀ (n : ℕ) (X Y : ℕ → ℚ) (eps2 : ℚ) (u v : ℕ), u < n → v < n →
      (v ∈ (insert_edges n X Y eps2).getD u [] ↔
        u ≠ v ∧ distUV X Y u v ≤ eps2)) ∧
    (∀ (n : ℕ) (X Y : ℕ → ℚ) (eps2 : ℚ) (u : ℕ),
      u ∉ (insert_edges n X Y eps2).getD u []) := by
  constructor
  · intro n X Y eps2 u v hu hv
    rw [mem_insert_edges n X Y eps2 u v hu]
    simp [hv]
  · intro n X Y eps2 u
    by_cases hu : u < n
    · rw [mem_insert_edges n X Y eps2 u u hu]
      simp
    · rw [List.getD_eq_default _ _ (by rw [insert_edges_length]; omega)]
      simp

/-- Witness for C5 at two points at squared distance 1 and `ε² = 2`. -/
theorem insert_edges_edge_iff_witness :
    ((1 ∈ (insert_edges 2 ptsX ptsY 2).getD 0 [] ↔
        (0 : ℕ) ≠ 1 ∧ distUV ptsX ptsY 0 1 ≤ 2) ∧
      0 ∉ (insert_edges 2 ptsX ptsY 2).getD 0 []) :=
  ⟨insert_edges_edge_iff.1 2 ptsX ptsY 2 0 1 (by decide) (by decide),
   insert_edges_edge_iff.2 2 ptsX ptsY 2 0⟩

/-- C4 — After a successful `finalize` (dense and `BIT_ADJ` branches):
`Va[2k]` is the exclusive prefix sum of the degrees `Va[2j+1]`, `j < k`
(`Va[0] = 0`), and `|Ea|` equals the total of the stored degrees. -/
theorem finalize_csr_invariants :
    (∀ (g g' : Graph), g.temp_adj.length = g.num_nodes → g.Ea = [] →
      g.finalize = Except.ok g' →
      (∀ k, k < g.num_nodes →
        g'.Va.getD (2 * k) 0 = ∑ j ∈ Finset.range k, g'.Va.getD (2 * j + 1) 0) ∧
      g'.Va.getD 0 0 = 0 ∧
      g'.Ea.length = ∑ k ∈ Finset.range g.num_nodes, g'.Va.getD (2 * k + 1) 0) ∧
    (∀ (g g' : GraphB), g.temp_adj.length = g.num_nodes → g.Ea = [] →
      g.finalize = Except.ok g' →
      (∀ k, k < g.num_nodes →
        g'.Va.getD (2 * k) 0 = ∑ j ∈ Finset.range k, g'.Va.getD (2 * j + 1) 0) ∧
      g'.Va.getD 0 0 = 0 ∧
      g'.Ea.length = ∑ k ∈ Finset.range g.num_nodes, g'.Va.getD (2 * k + 1) 0) := by
  constructor
  · intro g g' hn hEa hfin
    obtain ⟨-, hne, rfl⟩ := finalize_ok_inv g g' hEa hfin
    have hdlen : (denseDegrees g.temp_adj).length = g.num_nodes := by
      rw [denseDegrees_length, hn]
    have hVa : (finalizedOf g).Va = computeVa (denseDegrees g.temp_adj) 0 := rfl
    refine ⟨?_, ?_, ?_⟩
    · intro k hk
      rw [hVa]
      exact computeVa_prefix_sum _ k (by omega)
    · rw [hVa]
      exact computeVa_getD_zero _ (by simpa [denseDegrees] using hne)
    · rw [hVa, show (finalizedOf g).Ea = g.temp_adj.flatten from rfl,
        ← denseDegrees_sum, ← hdlen]
      exact (computeVa_sum_odd _).symm
  · intro g g' hn hEa hfin
    obtain ⟨hne, -, hVa, hEalen⟩ := finalizeB_ok_inv g g' hEa hfin
    have hdlen : (bitDegrees g.temp_adj).length = g.num_nodes := by
      rw [bitDegrees_length, hn]
    refine ⟨?_, ?_, ?_⟩
    · intro k hk
      rw [hVa]
      exact computeVa_prefix_sum _ k (by omega)
    · rw [hVa]
      exact computeVa_getD_zero _ (by simpa [bitDegrees] using hne)
    · rw [hVa, hEalen, ← hdlen]
      exact (computeVa_sum_odd _).symm

/-- Witness for C4 at `gD2` (dense) and `gB2` (`BIT_ADJ`). -/
theorem finalize_csr_invariants_witness :
    ((∀ k, k < gD2.num_nodes →
        (finalizedOf gD2).Va.getD (2 * k) 0 =
          ∑ j ∈ Finset.range k, (finalizedOf gD2).Va.getD (2 * j + 1) 0) ∧
      (finalizedOf gD2).Va.getD 0 0 = 0 ∧
      (finalizedOf gD2).Ea.length =
        ∑ k ∈ Finset.range gD2.num_nodes, (finalizedOf gD2).Va.getD (2 * k + 1) 0) ∧
    ((∀ k, k < gB2.num_nodes →
        gB2fin.Va.getD (2 * k) 0 =
          ∑ j ∈ Finset.range k, gB2fin.Va.getD (2 * j + 1) 0) ∧
      gB2fin.Va.getD 0 0 = 0 ∧
      gB2fin.Ea.length =
        ∑ k ∈ Finset.range gB2.num_nodes, gB2fin.Va.getD (2 * k + 1) 0) :=
  ⟨finalize_csr_invariants.1 gD2 (finalizedOf gD2) rfl rfl rfl,
   finalize_csr_invariants.2 gB2 gB2fin rfl rfl rfl⟩

/-- C3 — For the cpu builder (`insert_edges`), the finalized CSR
neighbour relation is symmetric.  For the G-DBSCAN builder
(`Solver::make_graph`), it is not: on two points within range only the
directed edge `0 → 1` is recorded. -/
theorem neighbour_symmetry :
    (∀ (g g' : Graph) (X Y : ℕ → ℚ) (eps2 : ℚ), g.Ea = [] →
      g.temp_adj = insert_edges g.num_nodes X Y eps2 →
      g.finalize = Except.ok g' →
      ∀ u v, u < g.num_nodes → v < g.num_nodes →
        (v ∈ nbrList g' u ↔ u ∈ nbrList g' v)) ∧
    (1 ∈ (make_graph 2 ptsX ptsY 2).getD 0 [] ∧
      0 ∉ (make_graph 2 ptsX ptsY 2).getD 1 []) := by
  constructor
  · intro g g' X Y eps2 hEa htemp hfin u v hu hv
    obtain ⟨-, -, rfl⟩ := finalize_ok_inv g g' hEa hfin
    have hlen : g.temp_adj.length = g.num_nodes := by
      rw [htemp, insert_edges_length]
    rw [nbrList_finalizedOf g u (by omega), nbrList_finalizedOf g v (by omega), htemp]
    rw [mem_insert_edges _ _ _ _ _ _ hu, mem_insert_edges _ _ _ _ _ _ hv]
    rw [distUV_comm X Y u v]
    constructor
    · rintro ⟨-, hne, hd⟩
      exact ⟨hu, fun h => hne h.symm, hd⟩
    · rintro ⟨-, hne, hd⟩
      exact ⟨hv, fun h => hne h.symm, hd⟩
  · rw [make_graph_eval]
    exact ⟨by decide, by decide⟩

/-- Witness for C3: the symmetric direction at the concrete staged graph
`gI`, plus the recorded asymmetry of `make_graph`. -/
theorem neighbour_symmetry_witness :
    ((1 ∈ nbrList (finalizedOf gI) 0 ↔ 0 ∈ nbrList (finalizedOf gI) 1) ∧
      1 ∈ (make_graph 2 ptsX ptsY 2).getD 0 [] ∧
      0 ∉ (make_graph 2 ptsX ptsY 2).getD 1 []) :=
  ⟨neighbour_symmetry.1 gI (finalizedOf gI) ptsX ptsY 2 rfl rfl
      (finalize_eq_ok gI rfl
        (by rw [show gI.temp_adj = insert_edges 2 ptsX ptsY 2 from rfl, insert_edges_eval]
            exact (by decide))
        rfl)
      0 1 (by decide) (by decide),
   neighbour_symmetry.2⟩

/-- C1 — On the frozen graph `gD2` (node 0 has stored degree
`Va[1] = 1`), with `minPts = 1`: the cpu `classify_nodes` labels node 0
Core (as the claim states), but the G-DBSCAN `classify_nodes` — which
compares `Va[2k]`, the offset slot written by `Graph::finalize` — labels
it Noise. -/
theorem classify_core_iff_degree_divergence :
    (finalizedOf gD2).Va.getD (2 * 0 + 1) 0 = 1 ∧
    (classify_nodes 1 (finalizedOf gD2)).memberships 0 = Membership.Core ∧
    (classify_nodes 2 (finalizedOf gD2)).memberships 0 = Membership.Noise ∧
    (classify_nodes_gdbscan 1 (finalizedOf gD2)).memberships 0 = Membership.Noise :=
  ⟨rfl, rfl, rfl, rfl⟩

/-- C8 — `finalize` on a zero-node graph reads
`Va[Va.size()-1]`/`Va[Va.size()-2]` of an empty `Va`: the access is out of
bounds (in both encodings), not a clean success with empty `Va`/`Ea`. -/
theorem finalize_empty_graph_out_of_bounds :
    Graph.finalize (Graph.init 0) = Except.error GraphError.OutOfBound ∧
    GraphB.finalize (GraphB.init 0) = Except.error GraphError.OutOfBound :=
  ⟨rfl, rfl⟩

/-- C6 — After a successful `finalize` the graph is frozen: a second
`finalize` and every edge insertion (dense `insert_edge(u,v)` and
`BIT_ADJ` `insert_edge(u,idx,mask)`) fail with the `assert_mutable_`
error. -/
theorem phase_errors_after_finalize :
    (∀ (g g' : Graph), g.finalize = Except.ok g' →
      g'.finalize = Except.error GraphError.Immutable ∧
      ∀ u v, g'.insert_edge u v = Except.error GraphError.Immutable) ∧
    (∀ (g g' : GraphB), g.finalize = Except.ok g' →
      g'.finalize = Except.error GraphError.Immutable ∧
      ∀ u idx mask, g'.insert_edge u idx mask = Except.error GraphError.Immutable) := by
  constructor
  · intro g g' hfin
    have him := finalize_immutable g g' hfin
    exact ⟨by rw [Graph.finalize, if_pos him],
      fun u v => by rw [Graph.insert_edge, if_pos him]⟩
  · intro g g' hfin
    have him := finalizeB_immutable g g' hfin
    exact ⟨by rw [GraphB.finalize, if_pos him],
      fun u idx mask => by rw [GraphB.insert_edge, if_pos him]⟩

/-- Witness for C6 at the frozen forms of `gD2` and `gB2`. -/
theorem phase_errors_after_finalize_witness :
    ((finalizedOf gD2).finalize = Except.error GraphError.Immutable ∧
      ∀ u v, (finalizedOf gD2).insert_edge u v = Except.error GraphError.Immutable) ∧
    (gB2fin.finalize = Except.error GraphError.Immutable ∧
      ∀ u idx mask, gB2fin.insert_edge u idx mask = Except.error GraphError.Immutable) :=
  ⟨phase_errors_after_finalize.1 gD2 (finalizedOf gD2) rfl,
   phase_errors_after_finalize.2 gB2 gB2fin rfl⟩

/-- C7 counterexample — reading `Va` before `finalize` does not fail:
on a fresh two-node graph (not finalized) the element access `Va[0]`
succeeds and returns the zero initialiser. -/
theorem readVa_succeeds_before_finalize :
    (Graph.init 2).immutable = false ∧
    (Graph.init 2).readVa 0 = Except.ok 0 :=
  ⟨rfl, rfl⟩

/-- C7 (amended) — `Va`/`Ea` are public members with no phase guard:
before `finalize`, any in-allocation read succeeds.  The only operation
guarded by `assert_immutable_` is `cluster_node`, which does fail before
`finalize`. -/
theorem cluster_node_fails_before_finalize :
    ∀ (g : Graph) (node : ℕ) (c : ℤ), g.immutable = false →
      g.cluster_node node c = Except.error GraphError.NotFinalized ∧
      (∀ i, i < g.Va.length → g.readVa i = Except.ok (g.Va.getD i 0)) := by
  intro g node c him
  constructor
  · rw [Graph.cluster_node, him]
    rfl
  · intro i hi
    rw [Graph.readVa, if_pos hi]

/-- Witness for C7's amended theorem at a fresh two-node graph. -/
theorem cluster_node_fails_before_finalize_witness :
    (Graph.init 2).cluster_node 0 0 = Except.error GraphError.NotFinalized ∧
    (∀ i, i < (Graph.init 2).Va.length →
      (Graph.init 2).readVa i = Except.ok ((Graph.init 2).Va.getD i 0)) :=
  cluster_node_fails_before_finalize (Graph.init 2) 0 0 rfl

/-! ### BFS: properties of the neighbour loop -/

theorem pushFold_spec (cluster : ℤ) (l : List ℕ) :
    ∀ (s : BfsState),
      (l.foldl (pushStep cluster) s).mems = s.mems ∧
      (∀ nb, nb ∈ s.next → nb ∈ (l.foldl (pushStep cluster) s).next) ∧
      (∀ i, s.ids i ≠ -1 → (l.foldl (pushStep cluster) s).ids i = s.ids i) ∧
      (∀ i, (l.foldl (pushStep cluster) s).ids i = s.ids i ∨
        (s.ids i = -1 ∧ (l.foldl (pushStep cluster) s).ids i = cluster)) ∧
      (∀ nb, nb ∈ (l.foldl (pushStep cluster) s).next →
        nb ∈ s.next ∨ (nb ∈ l ∧ s.ids nb = -1 ∧
          (l.foldl (pushStep cluster) s).ids nb = cluster)) ∧
      (∀ i, (l.foldl (pushStep cluster) s).ids i ≠ -1 →
        s.ids i ≠ -1 ∨ i ∈ (l.foldl (pushStep cluster) s).next) := by
  induction l with
  | nil =>
      intro s
      refine ⟨rfl, fun nb h => h, fun i _ => rfl, fun i => Or.inl rfl,
        fun nb h => Or.inl h, fun i h => Or.inl h⟩
  | cons nb₀ rest ih =>
      intro s
      rw [List.foldl_cons]
      obtain ⟨ihm, ihgrow, ihkeep, ihor, ihnext, ihnew⟩ := ih (pushStep cluster s nb₀)
      by_cases hpush : s.ids nb₀ = -1
      · have hids : (pushStep cluster s nb₀).ids = upd s.ids nb₀ cluster := by
          rw [pushStep, if_pos hpush]
        have hmems : (pushStep cluster s nb₀).mems = s.mems := by
          rw [pushStep, if_pos hpush]
        have hnext : (pushStep cluster s nb₀).next = s.next ++ [nb₀] := by
          rw [pushStep, if_pos hpush]
        rw [hmems] at ihm
        rw [hnext] at ihgrow ihnext
        rw [hids] at ihkeep ihor ihnext ihnew
        refine ⟨ihm, ?_, ?_, ?_, ?_, ?_⟩
        · intro nb h
          exact ihgrow nb (List.mem_append_left _ h)
        · intro i hi
          have hne : i ≠ nb₀ := fun he => hi (he ▸ hpush)
          rw [ihkeep i (by rw [upd_ne _ _ _ _ hne]; exact hi), upd_ne _ _ _ _ hne]
        · intro i
          by_cases hie : i = nb₀
          · subst hie
            rcases ihor i with h | ⟨h1, h2⟩
            · rw [upd_same] at h
              exact Or.inr ⟨hpush, h⟩
            · exact Or.inr ⟨hpush, h2⟩
          · rcases ihor i with h | ⟨h1, h2⟩
            · rw [upd_ne _ _ _ _ hie] at h
              exact Or.inl h
            · rw [upd_ne _ _ _ _ hie] at h1
              exact Or.inr ⟨h1, h2⟩
        · intro nb hnb
          rcases ihnext nb hnb with h | ⟨h1, h2, h3⟩
          · rcases List.mem_append.mp h with h' | h'
            · exact Or.inl h'
            · have hnb0 : nb = nb₀ := by simpa using h'
              subst hnb0
              refine Or.inr ⟨List.mem_cons_self _ _, hpush, ?_⟩
              rcases ihor nb with h'' | ⟨h1, h2⟩
              · rw [upd_same] at h''
                exact h''
              · exact h2
          · by_cases hie : nb = nb₀
            · subst hie
              exact Or.inr ⟨List.mem_cons_self _ _, hpush, h3⟩
            · rw [upd_ne _ _ _ _ hie] at h2
              exact Or.inr ⟨List.mem_cons_of_mem _ h1, h2, h3⟩
        · intro i hi
          rcases ihnew i hi with h | h
          · by_cases hie : i = nb₀
            · subst hie
              exact Or.inr (ihgrow i (List.mem_append_right _ (by simp)))
            · rw [upd_ne _ _ _ _ hie] at h
              exact Or.inl h
          · exact Or.inr h
      · have hstep : pushStep cluster s nb₀ = s := by
          rw [pushStep, if_neg hpush]
        rw [hstep] at ihm ihgrow ihkeep ihor ihnext ihnew ⊢
        refine ⟨ihm, ihgrow, ihkeep, ihor, ?_, ihnew⟩
        intro nb hnb
        rcases ihnext nb hnb with h | ⟨h1, h2, h3⟩
        · exact Or.inl h
        · exact Or.inr ⟨List.mem_cons_of_mem _ h1, h2, h3⟩

theorem processNode_spec (nbrs : ℕ → List ℕ) (cluster : ℤ) (s : BfsState) (node : ℕ) :
    (∀ i, s.ids i ≠ -1 → (processNode nbrs cluster s node).ids i = s.ids i) ∧
    (∀ i, (processNode nbrs cluster s node).ids i = s.ids i ∨
      (s.ids i = -1 ∧ (processNode nbrs cluster s node).ids i = cluster)) ∧
    (∀ i, s.mems i ≠ Membership.Noise →
      (processNode nbrs cluster s node).mems i = s.mems i) ∧
    (∀ i, (processNode nbrs cluster s node).mems i = s.mems i ∨
      (processNode nbrs cluster s node).mems i = Membership.Border) ∧
    (∀ nb, nb ∈ (processNode nbrs cluster s node).next → nb ∈ s.next ∨
      (nb ∈ nbrs node ∧ s.ids nb = -1 ∧
        (processNode nbrs cluster s node).ids nb = cluster)) ∧
    (∀ i, (processNode nbrs cluster s node).ids i ≠ -1 →
      s.ids i ≠ -1 ∨ i ∈ (processNode nbrs cluster s node).next) ∧
    ((processNode nbrs cluster s node).mems node ≠ Membership.Noise) ∧
    (∀ nb, nb ∈ s.next → nb ∈ (processNode nbrs cluster s node).next) ∧
    (∀ i, (processNode nbrs cluster s node).mems i = s.mems i ∨ i = node) := by
  by_cases hmem : s.mems node = Membership.Noise
  · have hg : processNode nbrs cluster s node =
        { s with mems := upd s.mems node Membership.Border } := by
      rw [processNode, if_pos hmem]
    rw [hg]
    refine ⟨fun i _ => rfl, fun i => Or.inl rfl, ?_, ?_, fun nb h => Or.inl h,
      fun i h => Or.inl h, ?_, fun nb h => h, ?_⟩
    · intro i hi
      have hne : i ≠ node := fun he => hi (he ▸ hmem)
      exact upd_ne _ _ _ _ hne
    · intro i
      by_cases hie : i = node
      · subst hie
        exact Or.inr (upd_same _ _ _)
      · exact Or.inl (upd_ne _ _ _ _ hie)
    · show upd s.mems node Membership.Border node ≠ Membership.Noise
      rw [upd_same]
      decide
    · intro i
      by_cases hie : i = node
      · exact Or.inr hie
      · exact Or.inl (upd_ne _ _ _ _ hie)
  · have hg : processNode nbrs cluster s node =
        (nbrs node).foldl (pushStep cluster) s := by
      rw [processNode, if_neg hmem]
    rw [hg]
    obtain ⟨m, grow, keep, hor, nextc, new⟩ := pushFold_spec cluster (nbrs node) s
    refine ⟨keep, hor, ?_, ?_, nextc, new, ?_, grow, ?_⟩
    · intro i _
      exact congrFun m i
    · intro i
      exact Or.inl (congrFun m i)
    · rw [congrFun m node]
      exact hmem
    · intro i
      exact Or.inl (congrFun m i)

theorem processLevel_spec (nbrs : ℕ → List ℕ) (cluster : ℤ) (curr : List ℕ) :
    ∀ (s : BfsState),
      (∀ i, s.ids i ≠ -1 → (processLevel nbrs cluster curr s).ids i = s.ids i) ∧
      (∀ i, (processLevel nbrs cluster curr s).ids i = s.ids i ∨
        (s.ids i = -1 ∧ (processLevel nbrs cluster curr s).ids i = cluster)) ∧
      (∀ i, s.mems i ≠ Membership.Noise →
        (processLevel nbrs cluster curr s).mems i = s.mems i) ∧
      (∀ i, (processLevel nbrs cluster curr s).mems i = s.mems i ∨
        (processLevel nbrs cluster curr s).mems i = Membership.Border) ∧
      (∀ nb, nb ∈ (processLevel nbrs cluster curr s).next → nb ∈ s.next ∨
        ((∃ u ∈ curr, nb ∈ nbrs u) ∧ s.ids nb = -1 ∧
          (processLevel nbrs cluster curr s).ids nb = cluster)) ∧
      (∀ i, (processLevel nbrs cluster curr s).ids i ≠ -1 →
        s.ids i ≠ -1 ∨ i ∈ (processLevel nbrs cluster curr s).next) ∧
      (∀ n, n ∈ curr → (processLevel nbrs cluster curr s).mems n ≠ Membership.Noise) ∧
      (∀ nb, nb ∈ s.next → nb ∈ (processLevel nbrs cluster curr s).next) ∧
      (∀ i, (processLevel nbrs cluster curr s).mems i = s.mems i ∨ i ∈ curr) := by
  induction curr with
  | nil =>
      intro s
      exact ⟨fun i _ => rfl, fun i => Or.inl rfl, fun i _ => rfl,
        fun i => Or.inl rfl, fun nb h => Or.inl h, fun i h => Or.inl h,
        fun n h => absurd h (List.not_mem_nil n), fun nb h => h,
        fun i => Or.inl rfl⟩
  | cons n₀ rest ih =>
      intro s
      have hfold : processLevel nbrs cluster (n₀ :: rest) s =
          processLevel nbrs cluster rest (processNode nbrs cluster s n₀) := by
        rw [processLevel, List.foldl_cons]
        rfl
      rw [hfold]
      obtain ⟨pkeep, por, pmkeep, pmb, pnext, pnew, pvis, pgrow, ponly⟩ :=
        processNode_spec nbrs cluster s n₀
      obtain ⟨lkeep, lor, lmkeep, lmb, lnext, lnew, lvis, lgrow, lonly⟩ :=
        ih (processNode nbrs cluster s n₀)
      refine ⟨?_, ?_, ?_, ?_, ?_, ?_, ?_, ?_, ?_⟩
      · intro i hi
        rw [lkeep i (by rw [pkeep i hi]; exact hi), pkeep i hi]
      · intro i
        rcases lor i with h | ⟨h1, h2⟩
        · rcases por i with h' | ⟨h1', h2'⟩
          · exact Or.inl (h.trans h')
          · exact Or.inr ⟨h1', h.trans h2'⟩
        · rcases por i with h' | ⟨h1', h2'⟩
          · exact Or.inr ⟨h' ▸ h1, h2⟩
          · exact Or.inr ⟨h1', h2⟩
      · intro i hi
        rw [lmkeep i (by rw [pmkeep i hi]; exact hi), pmkeep i hi]
      · intro i
        rcases lmb i with h | h
        · rcases pmb i with h' | h'
          · exact Or.inl (h.trans h')
          · exact Or.inr (h.trans h')
        · exact Or.inr h
      · intro nb hnb
        rcases lnext nb hnb with h | ⟨⟨u, hu, hnbu⟩, h2, h3⟩
        · rcases pnext nb h with h' | ⟨h1', h2', h3'⟩
          · exact Or.inl h'
          · refine Or.inr ⟨⟨n₀, List.mem_cons_self _ _, h1'⟩, h2', ?_⟩
            rcases lor nb with h'' | ⟨h1'', h2''⟩
            · exact h''.trans h3'
            · exact h2''
        · refine Or.inr ⟨⟨u, List.mem_cons_of_mem _ hu, hnbu⟩, ?_, h3⟩
          rcases por nb with h' | ⟨h1', h2'⟩
          · exact h' ▸ h2
          · exact h1'
      · intro i hi
        rcases lnew i hi with h | h
        · rcases pnew i h with h' | h'
          · exact Or.inl h'
          · exact Or.inr (lgrow i h')
        · exact Or.inr h
      · intro n hn
        rcases List.mem_cons.mp hn with h | h
        · subst h
          rw [lmkeep n pvis]
          exact pvis
        · exact lvis n h
      · intro nb h
        exact lgrow nb (pgrow nb h)
      · intro i
        rcases lonly i with h | h
        · rcases ponly i with h' | h'
          · exact Or.inl (h.trans h')
          · exact Or.inr (h' ▸ List.mem_cons_self _ _)
        · exact Or.inr (List.mem_cons_of_mem _ h)

/-! ### BFS: the level loop -/

theorem countNeg_le (N : ℕ) (ids ids' : Ids)
    (h : ∀ i, ids' i = -1 → ids i = -1) :
    countNeg N ids' ≤ countNeg N ids := by
  apply Finset.card_le_card
  intro i hi
  rw [Finset.mem_filter] at hi ⊢
  exact ⟨hi.1, h i hi.2⟩

theorem countNeg_lt (N : ℕ) (ids ids' : Ids)
    (h : ∀ i, ids' i = -1 → ids i = -1)
    (j : ℕ) (hj : j < N) (h1 : ids j = -1) (h2 : ids' j ≠ -1) :
    countNeg N ids' < countNeg N ids := by
  apply Finset.card_lt_card
  rw [Finset.ssubset_iff_of_subset]
  · exact ⟨j, by rw [Finset.mem_filter]; exact ⟨Finset.mem_range.mpr hj, h1⟩,
      by rw [Finset.mem_filter]; exact fun hc => h2 hc.2⟩
  · intro i hi
    rw [Finset.mem_filter] at hi ⊢
    exact ⟨hi.1, h i hi.2⟩

theorem bfsLoop_nil (nbrs : ℕ → List ℕ) (cluster : ℤ) (fuel : ℕ)
    (ids : Ids) (mems : Mems) :
    bfsLoop nbrs cluster fuel [] ids mems = some (ids, mems) := by
  cases fuel <;> rfl

theorem bfsLoop_zero_cons (nbrs : ℕ → List ℕ) (cluster : ℤ) (n : ℕ)
    (rest : List ℕ) (ids : Ids) (mems : Mems) :
    bfsLoop nbrs cluster 0 (n :: rest) ids mems = none := rfl

theorem bfsLoop_succ_cons (nbrs : ℕ → List ℕ) (cluster : ℤ) (fuel n : ℕ)
    (rest : List ℕ) (ids : Ids) (mems : Mems) :
    bfsLoop nbrs cluster (fuel + 1) (n :: rest) ids mems =
      bfsLoop nbrs cluster fuel
        (processLevel nbrs cluster (n :: rest) ⟨ids, mems, []⟩).next
        (processLevel nbrs cluster (n :: rest) ⟨ids, mems, []⟩).ids
        (processLevel nbrs cluster (n :: rest) ⟨ids, mems, []⟩).mems := rfl

/-- Cluster ids survive the level loop: a value other than `-1` is never
overwritten (each write site is guarded by `cluster_ids[nb] == -1`). -/
theorem bfsLoop_keep (nbrs : ℕ → List ℕ) (cluster : ℤ) :
    ∀ (fuel : ℕ) (curr : List ℕ) (ids : Ids) (mems : Mems) (r : Ids × Mems),
      bfsLoop nbrs cluster fuel curr ids mems = some r →
      ∀ i, ids i ≠ -1 → r.1 i = ids i := by
  intro fuel
  induction fuel with
  | zero =>
      intro curr ids mems r hr i hi
      cases curr with
      | nil =>
          rw [bfsLoop_nil] at hr
          cases hr
          rfl
      | cons n rest =>
          rw [bfsLoop_zero_cons] at hr
          cases hr
  | succ fuel ih =>
      intro curr ids mems r hr i hi
      cases curr with
      | nil =>
          rw [bfsLoop_nil] at hr
          cases hr
          rfl
      | cons n rest =>
          rw [bfsLoop_succ_cons] at hr
          obtain ⟨lkeep, -⟩ :=
            processLevel_spec nbrs cluster (n :: rest) ⟨ids, mems, []⟩
          have hs : (processLevel nbrs cluster (n :: rest) ⟨ids, mems, []⟩).ids i =
              ids i := lkeep i hi
          rw [ih _ _ _ _ hr i (by rw [hs]; exact hi), hs]

/-- The main induction: with fuel exceeding the number of unassigned
nodes, the level loop empties its frontier and establishes the
classification invariants. -/
theorem bfsLoop_sound (N : ℕ) (nbrs : ℕ → List ℕ) (cluster : ℤ)
    (h3 : ∀ u, u < N → ∀ nb ∈ nbrs u, nb < N) (hc : 0 ≤ cluster) :
    ∀ (fuel : ℕ) (curr : List ℕ) (ids : Ids) (mems : Mems),
      countNeg N ids < fuel →
      (∀ n ∈ curr, n < N ∧ ids n ≠ -1) →
      (∀ i, ids i ≠ -1 → mems i ≠ Membership.Noise ∨ i ∈ curr) →
      (∀ i, mems i = Membership.Border → ids i ≠ -1) →
      (∀ i, ids i = -1 ∨ 0 ≤ ids i) →
      ∃ ids' mems',
        bfsLoop nbrs cluster fuel curr ids mems = some (ids', mems') ∧
        (∀ i, ids i ≠ -1 → ids' i = ids i) ∧
        (∀ i, mems' i = Membership.Core ↔ mems i = Membership.Core) ∧
        (∀ i, ids' i ≠ -1 → mems' i ≠ Membership.Noise) ∧
        (∀ i, mems' i = Membership.Border → ids' i ≠ -1) ∧
        (∀ i, ids' i = -1 ∨ 0 ≤ ids' i) := by
  intro fuel
  induction fuel with
  | zero =>
      intro curr ids mems hfuel
      exact absurd hfuel (Nat.not_lt_zero _)
  | succ fuel ih =>
      intro curr ids mems hfuel hcurr hA hBo hNn
      cases curr with
      | nil =>
          refine ⟨ids, mems, bfsLoop_nil nbrs cluster _ ids mems,
            fun i _ => rfl, fun i => Iff.rfl, ?_, hBo, hNn⟩
          intro i hi
          rcases hA i hi with h | h
          · exact h
          · exact absurd h (List.not_mem_nil i)
      | cons n rest =>
          obtain ⟨lkeep, lor, lmkeep, lmb, lnext, lnew, lvis, -, lonly⟩ :=
            processLevel_spec nbrs cluster (n :: rest) ⟨ids, mems, []⟩
          dsimp only at lkeep lor lmkeep lmb lnext lnew lvis lonly
          set s := processLevel nbrs cluster (n :: rest) ⟨ids, mems, []⟩ with hs
          have hclne : cluster ≠ -1 := by omega
          have hback : ∀ i, s.ids i = -1 → ids i = -1 := by
            intro i hi
            rcases lor i with h | ⟨h1, h2⟩
            · rw [← h]; exact hi
            · exact absurd (h2 ▸ hi) hclne
          have hCS : ∀ i, s.mems i = Membership.Core ↔ mems i = Membership.Core := by
            intro i
            constructor
            · intro h
              rcases lmb i with h' | h'
              · rw [← h']; exact h
              · rw [h] at h'; cases h'
            · intro h
              rw [lmkeep i (by rw [h]; decide)]
              exact h
          have hBo' : ∀ i, s.mems i = Membership.Border → s.ids i ≠ -1 := by
            intro i hi
            rcases lonly i with h | h
            · rw [h] at hi
              intro hc'
              exact (hBo i hi) (hback i hc')
            · intro hc'
              exact (hcurr i h).2 (hback i hc')
          have hnextP : ∀ nb, nb ∈ s.next → nb < N ∧ ids nb = -1 ∧ s.ids nb ≠ -1 := by
            intro nb hnb
            rcases lnext nb hnb with h | ⟨⟨u, hu, hnbu⟩, h2, h3'⟩
            · exact absurd h (List.not_mem_nil nb)
            · exact ⟨h3 u (hcurr u hu).1 nb hnbu, h2, by rw [h3']; exact hclne⟩
          have hcurr' : ∀ nb ∈ s.next, nb < N ∧ s.ids nb ≠ -1 :=
            fun nb hnb => ⟨(hnextP nb hnb).1, (hnextP nb hnb).2.2⟩
          have hA' : ∀ i, s.ids i ≠ -1 → s.mems i ≠ Membership.Noise ∨ i ∈ s.next := by
            intro i hi
            rcases lnew i hi with h | h
            · rcases hA i h with h' | h'
              · exact Or.inl (by rw [lmkeep i h']; exact h')
              · exact Or.inl (lvis i h')
            · exact Or.inr h
          have hNn' : ∀ i, s.ids i = -1 ∨ 0 ≤ s.ids i := by
            intro i
            rcases lor i with h | ⟨h1, h2⟩
            · rw [h]; exact hNn i
            · rw [h2]; exact Or.inr hc
          by_cases hne : s.next = []
          · refine ⟨s.ids, s.mems, ?_, lkeep, hCS, ?_, hBo', hNn'⟩
            · rw [bfsLoop_succ_cons, ← hs, hne, bfsLoop_nil]
            · intro i hi
              rcases hA' i hi with h | h
              · exact h
              · rw [hne] at h
                exact absurd h (List.not_mem_nil i)
          · obtain ⟨nb, hnb⟩ := List.exists_mem_of_ne_nil s.next hne
            have hdec : countNeg N s.ids < countNeg N ids :=
              countNeg_lt N ids s.ids hback nb (hnextP nb hnb).1
                (hnextP nb hnb).2.1 (hnextP nb hnb).2.2
            obtain ⟨ids', mems', hsome, mono', cs', a', bo', nn'⟩ :=
              ih s.next s.ids s.mems (by omega) hcurr' hA' hBo' hNn'
            refine ⟨ids', mems', ?_, ?_, ?_, a', bo', nn'⟩
            · rw [bfsLoop_succ_cons, ← hs]
              exact hsome
            · intro i hi
              rw [mono' i (by rw [lkeep i hi]; exact hi), lkeep i hi]
            · intro i
              exact (cs' i).trans (hCS i)

/-- Pure termination: with fuel exceeding the number of unassigned nodes,
the level loop reaches the empty frontier. -/
theorem bfsLoop_terminates (N : ℕ) (nbrs : ℕ → List ℕ) (cluster : ℤ)
    (h3 : ∀ u, u < N → ∀ nb ∈ nbrs u, nb < N) (hc : 0 ≤ cluster) :
    ∀ (fuel : ℕ) (curr : List ℕ) (ids : Ids) (mems : Mems),
      countNeg N ids < fuel →
      (∀ n ∈ curr, n < N) →
      ∃ r, bfsLoop nbrs cluster fuel curr ids mems = some r := by
  intro fuel
  induction fuel with
  | zero =>
      intro curr ids mems hfuel
      exact absurd hfuel (Nat.not_lt_zero _)
  | succ fuel ih =>
      intro curr ids mems hfuel hcurr
      cases curr with
      | nil => exact ⟨(ids, mems), bfsLoop_nil nbrs cluster _ ids mems⟩
      | cons n rest =>
          obtain ⟨-, lor, -, -, lnext, -, -, -, -⟩ :=
            processLevel_spec nbrs cluster (n :: rest) ⟨ids, mems, []⟩
          dsimp only at lor lnext
          set s := processLevel nbrs cluster (n :: rest) ⟨ids, mems, []⟩ with hs
          have hclne : cluster ≠ -1 := by omega
          have hback : ∀ i, s.ids i = -1 → ids i = -1 := by
            intro i hi
            rcases lor i with h | ⟨h1, h2⟩
            · rw [← h]; exact hi
            · exact absurd (h2 ▸ hi) hclne
          have hnextP : ∀ nb, nb ∈ s.next → nb < N ∧ ids nb = -1 ∧ s.ids nb ≠ -1 := by
            intro nb hnb
            rcases lnext nb hnb with h | ⟨⟨u, hu, hnbu⟩, h2, h3'⟩
            · exact absurd h (List.not_mem_nil nb)
            · exact ⟨h3 u (hcurr u hu) nb hnbu, h2, by rw [h3']; exact hclne⟩
          by_cases hne : s.next = []
          · refine ⟨(s.ids, s.mems), ?_⟩
            rw [bfsLoop_succ_cons, ← hs, hne, bfsLoop_nil]
          · obtain ⟨nb, hnb⟩ := List.exists_mem_of_ne_nil s.next hne
            have hdec : countNeg N s.ids < countNeg N ids :=
              countNeg_lt N ids s.ids hback nb (hnextP nb hnb).1
                (hnextP nb hnb).2.1 (hnextP nb hnb).2.2
            obtain ⟨r, hr⟩ := ih s.next s.ids s.mems (by omega)
              (fun m hm => (hnextP m hm).1)
            refine ⟨r, ?_⟩
            rw [bfsLoop_succ_cons, ← hs]
            exact hr

/-- C10 — `bfs` terminates on every well-formed graph: a node is
pushed only when its cluster id is `-1`, and its id is set non-negative
before the push, so each node enters a frontier at most once; the fuel
`countNeg + 1` built into the embedding is enough for the C++ `while`
loop to empty its frontier. -/
theorem bfs_terminates :
    ∀ (N : ℕ) (nbrs : ℕ → List ℕ) (ids : Ids) (mems : Mems)
      (start_node : ℕ) (cluster : ℤ),
      (∀ u, u < N → ∀ nb ∈ nbrs u, nb < N) →
      start_node < N → 0 ≤ cluster →
      ∃ r, bfs N nbrs ids mems start_node cluster = some r := by
  intro N nbrs ids mems start cluster hwf hstart hc
  apply bfsLoop_terminates N nbrs cluster hwf hc (countNeg N ids + 1) [start]
    ids mems (by omega)
  intro n hn
  have hn' : n = start := by simpa using hn
  rw [hn']
  exact hstart

/-- Witness for C10: a one-node graph with no neighbours. -/
theorem bfs_terminates_witness :
    ∃ r, bfs 1 (fun _ => []) (fun _ => -1) (fun _ => Membership.Noise) 0 0 =
      some r :=
  bfs_terminates 1 (fun _ => []) (fun _ => -1) (fun _ => Membership.Noise) 0 0
    (fun _ _ nb hnb => absurd hnb (List.not_mem_nil nb)) (by decide) (by decide)

/-! ### The outer cluster-identification loop -/

theorem identStep_keep (N : ℕ) (nbrs : ℕ → List ℕ) (st st' : Ids × Mems × ℤ)
    (node : ℕ) (h : identStep N nbrs st node = some st') :
    ∀ i, st.1 i ≠ -1 → st'.1 i = st.1 i := by
  obtain ⟨ids, mems, cluster⟩ := st
  intro i hi
  rw [identStep] at h
  by_cases hg : ids node = -1 ∧ mems node = Membership.Core
  · rw [if_pos hg] at h
    cases hbfs : bfs N nbrs (upd ids node cluster) mems node cluster with
    | none => rw [hbfs] at h; cases h
    | some p =>
        obtain ⟨ids₁, mems₁⟩ := p
        rw [hbfs] at h
        cases h
        have hne : i ≠ node := fun he => hi (he ▸ hg.1)
        have hupd : upd ids node cluster i = ids i := upd_ne _ _ _ _ hne
        have h2 := bfsLoop_keep nbrs cluster _ _ _ _ _ hbfs i
          (by rw [hupd]; exact hi)
        show ids₁ i = ids i
        rw [← hupd]
        exact h2
  · rw [if_neg hg] at h
    cases h
    rfl

theorem identify_fold_keep (N : ℕ) (nbrs : ℕ → List ℕ) :
    ∀ (l : List ℕ) (st : Ids × Mems × ℤ) (r : Ids × Mems × ℤ),
      l.foldlM (identStep N nbrs) st = some r →
      ∀ i, st.1 i ≠ -1 → r.1 i = st.1 i := by
  intro l
  induction l with
  | nil =>
      intro st r h i hi
      rw [List.foldlM_nil] at h
      cases h
      rfl
  | cons nd rest ih =>
      intro st r h i hi
      rw [List.foldlM_cons] at h
      cases hstep : identStep N nbrs st nd with
      | none => rw [hstep] at h; cases h
      | some st₁ =>
          rw [hstep] at h
          have h' : rest.foldlM (identStep N nbrs) st₁ = some r := h
          have h1 := identStep_keep N nbrs st st₁ nd hstep i hi
          rw [ih st₁ r h' i (by rw [h1]; exact hi), h1]

/-- C9 — cluster ids are write-once: every write site
(`processNode`'s neighbour loop, the whole level loop, and the
`identify_cluster` outer loop) writes `clusterIds[i]` only when its
current value is `-1`, so a value `≥ 0` never changes afterwards. -/
theorem cluster_ids_write_once :
    (∀ (nbrs : ℕ → List ℕ) (cluster : ℤ) (s : BfsState) (node i : ℕ),
      (processNode nbrs cluster s node).ids i ≠ s.ids i → s.ids i = -1) ∧
    (∀ (nbrs : ℕ → List ℕ) (cluster : ℤ) (fuel : ℕ) (curr : List ℕ)
      (ids : Ids) (mems : Mems) (r : Ids × Mems),
      bfsLoop nbrs cluster fuel curr ids mems = some r →
      ∀ i, ids i ≠ -1 → r.1 i = ids i) ∧
    (∀ (g : Graph) (r : Ids × Mems × ℤ),
      identify_cluster g = some r →
      ∀ i, g.cluster_ids i ≠ -1 → r.1 i = g.cluster_ids i) := by
  refine ⟨?_, bfsLoop_keep, ?_⟩
  · intro nbrs cluster s node i h
    obtain ⟨-, por, -⟩ := processNode_spec nbrs cluster s node
    rcases por i with h' | ⟨h1, -⟩
    · exact absurd h' h
    · exact h1
  · intro g r h i hi
    rw [identify_cluster] at h
    exact identify_fold_keep g.num_nodes (nbrList g) _ _ r h i hi

/-- A one-node graph whose single cluster id is already assigned. -/
def gW : Graph := { Graph.init 1 with cluster_ids := fun _ => 5 }

/-- Witness for C9: a changed id must have been `-1` (the push at
neighbour 1), ids other than `-1` survive an empty loop, and
`identify_cluster` leaves the pre-assigned id 5 of `gW` unchanged. -/
theorem cluster_ids_write_once_witness :
    (⟨fun _ => -1, fun _ => Membership.Core, []⟩ : BfsState).ids 1 = -1 ∧
    ((fun _ : ℕ => (5 : ℤ)), (fun _ : ℕ => Membership.Noise)).1 0 =
      (fun _ : ℕ => (5 : ℤ)) 0 ∧
    (gW.cluster_ids, gW.memberships, (0 : ℤ)).1 0 = gW.cluster_ids 0 :=
  ⟨cluster_ids_write_once.1 (fun _ => [1]) 7
      ⟨fun _ => -1, fun _ => Membership.Core, []⟩ 0 1 (by decide),
   cluster_ids_write_once.2.1 (fun _ => []) 7 0 [] (fun _ => 5)
      (fun _ => Membership.Noise)
      ((fun _ : ℕ => (5 : ℤ)), (fun _ : ℕ => Membership.Noise)) rfl 0 (by decide),
   cluster_ids_write_once.2.2 gW (gW.cluster_ids, gW.memberships, 0) rfl 0
      (by decide)⟩

/-- Soundness of the `identify_cluster` scan: it succeeds and maintains
the membership/cluster-id invariants, and every scanned Core node ends up
assigned. -/
theorem identify_fold_sound (N : ℕ) (nbrs : ℕ → List ℕ)
    (h3 : ∀ u, u < N → ∀ nb ∈ nbrs u, nb < N) :
    ∀ (l : List ℕ) (ids : Ids) (mems : Mems) (cluster : ℤ),
      (∀ n ∈ l, n < N) →
      0 ≤ cluster →
      (∀ i, ids i ≠ -1 → mems i ≠ Membership.Noise) →
      (∀ i, mems i = Membership.Border → ids i ≠ -1) →
      (∀ i, ids i = -1 ∨ 0 ≤ ids i) →
      ∃ ids' mems' cluster',
        l.foldlM (identStep N nbrs) (ids, mems, cluster) =
          some (ids', mems', cluster') ∧
        (∀ i, ids i ≠ -1 → ids' i = ids i) ∧
        (∀ i, mems' i = Membership.Core ↔ mems i = Membership.Core) ∧
        (∀ i, ids' i ≠ -1 → mems' i ≠ Membership.Noise) ∧
        (∀ i, mems' i = Membership.Border → ids' i ≠ -1) ∧
        (∀ i, ids' i = -1 ∨ 0 ≤ ids' i) ∧
        (∀ n ∈ l, mems' n = Membership.Core → ids' n ≠ -1) := by
  intro l
  induction l with
  | nil =>
      intro ids mems cluster _ _ hO2 hO3 hO1
      exact ⟨ids, mems, cluster, by rw [List.foldlM_nil]; rfl, fun i _ => rfl,
        fun i => Iff.rfl, hO2, hO3, hO1,
        fun n hn => absurd hn (List.not_mem_nil n)⟩
  | cons nd rest ih =>
      intro ids mems cluster hl hc hO2 hO3 hO1
      have hndN : nd < N := hl nd (List.mem_cons_self _ _)
      have hrest : ∀ n ∈ rest, n < N := fun n hn => hl n (List.mem_cons_of_mem _ hn)
      by_cases hg : ids nd = -1 ∧ mems nd = Membership.Core
      · have hclne : cluster ≠ -1 := by omega
        have hup0 : upd ids nd cluster nd = cluster := upd_same _ _ _
        obtain ⟨ids₁, mems₁, hsome₁, mono₁, cs₁, a₁, bo₁, nn₁⟩ :=
          bfsLoop_sound N nbrs cluster h3 hc
            (countNeg N (upd ids nd cluster) + 1) [nd] (upd ids nd cluster) mems
            (by omega)
            (by
              intro n hn
              have hn' : n = nd := by simpa using hn
              subst hn'
              rw [hup0]
              exact ⟨hndN, hclne⟩)
            (by
              intro i hi
              by_cases hie : i = nd
              · subst hie
                exact Or.inr (by simp)
              · rw [upd_ne _ _ _ _ hie] at hi
                exact Or.inl (hO2 i hi))
            (by
              intro i hi
              by_cases hie : i = nd
              · subst hie
                rw [hup0]
                exact hclne
              · rw [upd_ne _ _ _ _ hie]
                exact hO3 i hi)
            (by
              intro i
              by_cases hie : i = nd
              · subst hie
                rw [hup0]
                exact Or.inr hc
              · rw [upd_ne _ _ _ _ hie]
                exact hO1 i)
        have hbfs : bfs N nbrs (upd ids nd cluster) mems nd cluster =
            some (ids₁, mems₁) := hsome₁
        have hids1nd : ids₁ nd = cluster := by
          rw [mono₁ nd (by rw [hup0]; exact hclne), hup0]
        obtain ⟨ids', mems', cluster', hsome', mono', cs', a', bo', nn', seeded'⟩ :=
          ih ids₁ mems₁ (cluster + 1) hrest (by omega) a₁ bo₁ nn₁
        refine ⟨ids', mems', cluster', ?_, ?_, ?_, a', bo', nn', ?_⟩
        · rw [List.foldlM_cons]
          have hstep : identStep N nbrs (ids, mems, cluster) nd =
              some (ids₁, mems₁, cluster + 1) := by
            rw [identStep, if_pos hg, hbfs]
          rw [hstep]
          exact hsome'
        · intro i hi
          have hie : i ≠ nd := fun he => hi (he ▸ hg.1)
          have h1 : ids₁ i = ids i := by
            rw [mono₁ i (by rw [upd_ne _ _ _ _ hie]; exact hi),
              upd_ne _ _ _ _ hie]
          rw [mono' i (by rw [h1]; exact hi), h1]
        · intro i
          exact (cs' i).trans (cs₁ i)
        · intro n hn
          rcases List.mem_cons.mp hn with h | h
          · subst h
            intro _
            rw [mono' n (by rw [hids1nd]; exact hclne), hids1nd]
            exact hclne
          · exact seeded' n h
      · obtain ⟨ids', mems', cluster', hsome', mono', cs', a', bo', nn', seeded'⟩ :=
          ih ids mems cluster hrest hc hO2 hO3 hO1
        refine ⟨ids', mems', cluster', ?_, mono', cs', a', bo', nn', ?_⟩
        · rw [List.foldlM_cons]
          have hstep : identStep N nbrs (ids, mems, cluster) nd =
              some (ids, mems, cluster) := by
            rw [identStep, if_neg hg]
          rw [hstep]
          exact hsome'
        · intro n hn
          rcases List.mem_cons.mp hn with h | h
          · subst h
            intro hcore
            by_cases hid : ids n = -1
            · exact absurd ⟨hid, (cs' n).mp hcore⟩ hg
            · rw [mono' n hid]
              exact hid
          · exact seeded' n h

/-- After `classify_nodes` no node is Border. -/
theorem classify_not_border (min_pts : ℕ) (g : Graph)
    (h2 : ∀ i, g.memberships i ≠ Membership.Border) :
    ∀ i, (classify_nodes min_pts g).memberships i ≠ Membership.Border := by
  intro i
  show (if i < g.num_nodes then
      (if min_pts ≤ g.Va.getD (2 * i + 1) 0 then Membership.Core
        else Membership.Noise)
      else g.memberships i) ≠ Membership.Border
  by_cases hi : i < g.num_nodes
  · rw [if_pos hi]
    by_cases hd : min_pts ≤ g.Va.getD (2 * i + 1) 0
    · rw [if_pos hd]; decide
    · rw [if_neg hd]; decide
  · rw [if_neg hi]
    exact h2 i

/-- C2 — after the full pipeline (classify, then cluster
identification) on a well-formed graph with fresh cluster ids:
`clusterIds[i] = -1 ⟺ membership[i] = Noise`, equivalently
`clusterIds[i] ≥ 0 ⟺ membership[i] ∈ {Core, Border}`, for every node. -/
theorem pipeline_noise_iff_unassigned :
    ∀ (g : Graph) (min_pts : ℕ),
      (∀ i, g.cluster_ids i = -1) →
      (∀ i, g.memberships i ≠ Membership.Border) →
      (∀ u, u < g.num_nodes → ∀ nb ∈ nbrList g u, nb < g.num_nodes) →
      ∃ ids' mems' cluster',
        identify_cluster (classify_nodes min_pts g) =
          some (ids', mems', cluster') ∧
        ∀ i, i < g.num_nodes →
          ((ids' i = -1 ↔ mems' i = Membership.Noise) ∧
           (0 ≤ ids' i ↔
             (mems' i = Membership.Core ∨ mems' i = Membership.Border))) := by
  intro g min_pts h1 h2 h3
  obtain ⟨ids', mems', cluster', hsome, -, -, a', bo', nn', seeded'⟩ :=
    identify_fold_sound g.num_nodes (nbrList g) h3 (List.range g.num_nodes)
      g.cluster_ids (classify_nodes min_pts g).memberships 0
      (fun n hn => List.mem_range.mp hn)
      le_rfl
      (fun i hi => absurd (h1 i) hi)
      (fun i hi => absurd hi (classify_not_border min_pts g h2 i))
      (fun i => Or.inl (h1 i))
  refine ⟨ids', mems', cluster', hsome, ?_⟩
  intro i hiN
  have hCoreAssigned : mems' i = Membership.Core → ids' i ≠ -1 :=
    seeded' i (List.mem_range.mpr hiN)
  have hNotNoise : mems' i ≠ Membership.Noise → ids' i ≠ -1 := by
    intro hm
    cases hmem : mems' i with
    | Core => exact hCoreAssigned hmem
    | Border => exact bo' i hmem
    | Noise => exact absurd hmem hm
  constructor
  · constructor
    · intro hid
      by_contra hm
      exact hNotNoise hm hid
    · intro hm
      by_contra hid
      exact a' i hid hm
  · constructor
    · intro hge
      have hid : ids' i ≠ -1 := by omega
      cases hmem : mems' i with
      | Core => exact Or.inl rfl
      | Border => exact Or.inr rfl
      | Noise => exact absurd hmem (a' i hid)
    · intro hm
      have hid : ids' i ≠ -1 := by
        rcases hm with h | h
        · exact hCoreAssigned h
        · exact bo' i h
      rcases nn' i with h | h
      · exact absurd h hid
      · exact h

/-- Witness for C2 at the frozen two-node mutual-edge graph, `minPts = 1`. -/
theorem pipeline_noise_iff_unassigned_witness :
    ∃ ids' mems' cluster',
      identify_cluster (classify_nodes 1 (finalizedOf gD2)) =
        some (ids', mems', cluster') ∧
      ∀ i, i < (finalizedOf gD2).num_nodes →
        ((ids' i = -1 ↔ mems' i = Membership.Noise) ∧
         (0 ≤ ids' i ↔
           (mems' i = Membership.Core ∨ mems' i = Membership.Border))) :=
  pipeline_noise_iff_unassigned (finalizedOf gD2) 1
    (fun _ => rfl)
    (fun _ h => Membership.noConfusion h)
    (by decide)

end DBSCAN
